import Mathlib

/-!
Verification of the `http_provider` code-generation engine.

The development shallowly embeds the engine's data model and algorithms:
the endpoint/client specification records (`src/input.rs`), the
operation-name derivation and the per-endpoint expansion logic
(`src/expanders/method.rs`, `src/expanders/interface.rs`,
`src/expanders/mod.rs`, `src/error.rs`), and the runtime semantics of the
code those expanders emit (URL construction, response interpretation).
External collaborators (the `heck` snake-case conversion, the base-URL
`join` operation, the HTTP status reason-phrase table) are modelled from
their documented behaviour; everything else is translated directly from
the Rust source.  Strings are handled as `List Char` internally; the
character classes involved (`[a-zA-Z0-9_]`) are ASCII, matching the
source's regex `\{([a-zA-Z0-9_]+)\}`.
-/

/-- The character class of the source regex `\{([a-zA-Z0-9_]+)\}`:
ASCII alphanumerics and underscore. -/
def isWordChar (c : Char) : Bool := c.isAlphanum || c = '_'

/-- The character substitution performed by Rust's
`str::replace("/", "_")`. -/
def slashToUnderscore (c : Char) : Char := if c = '/' then '_' else c

/-- One left-to-right scan of the regex `\{([a-zA-Z0-9_]+)\}` over a
character list, returning the list of captured parameter names (as
`captures_iter` yields them) together with the input with every match
replaced by the empty string (as `Regex::replace_all(&s, "")` yields it).
The first argument is `none` while scanning ordinary text and
`some acc` after an opening brace with `acc` the word characters read so
far; on a failed match the regex engine restarts one character after the
match start, which for this pattern amounts to emitting the brace and the
accumulated word characters unchanged. -/
def scanGo : Option (List Char) → List Char → List (List Char) × List Char
  | none, [] => ([], [])
  | none, c :: rest =>
    if c = '{' then scanGo (some []) rest
    else
      let (ps, out) := scanGo none rest
      (ps, c :: out)
  | some acc, [] => ([], '{' :: acc)
  | some acc, c :: rest =>
    if c = '}' then
      if acc.isEmpty then
        let (ps, out) := scanGo none rest
        (ps, '{' :: '}' :: out)
      else
        let (ps, out) := scanGo none rest
        (acc :: ps, out)
    else if isWordChar c then
      scanGo (some (acc ++ [c])) rest
    else if c = '{' then
      let (ps, out) := scanGo (some []) rest
      (ps, '{' :: acc ++ out)
    else
      let (ps, out) := scanGo none rest
      (ps, '{' :: acc ++ c :: out)

/-- The parameter names captured by `captures_iter` of the path-parameter
regex, in left-to-right order. -/
def extractParams (cs : List Char) : List (List Char) := (scanGo none cs).1

/-- The input with every regex match removed, as by
`re.replace_all(&base_path, "")`. -/
def removeParams (cs : List Char) : List Char := (scanGo none cs).2

/-- Rust's `str::replace("//", "/")`: a single left-to-right
non-overlapping pass replacing each occurrence of `//` by `/`. -/
def collapseOnce : List Char → List Char
  | [] => []
  | [c] => [c]
  | c :: c' :: rest =>
    if c = '/' ∧ c' = '/' then '/' :: collapseOnce rest
    else c :: collapseOnce (c' :: rest)

/-- Full collapsing of doubled separators (used by the specification-side
description of name derivation): every run of `/` becomes a single `/`. -/
def squeezeSlashes : List Char → List Char
  | [] => []
  | [c] => [c]
  | c :: c' :: rest =>
    if c = '/' ∧ c' = '/' then squeezeSlashes (c' :: rest)
    else c :: squeezeSlashes (c' :: rest)

/-- Drop leading `/` characters (`str::trim_start_matches('/')`). -/
def trimLeftSlashes (cs : List Char) : List Char := cs.dropWhile (· = '/')

/-- Drop trailing `/` characters. -/
def trimRightSlashes (cs : List Char) : List Char :=
  (cs.reverse.dropWhile (· = '/')).reverse

/-- Rust's `str::trim_matches('/')`: drop leading and trailing `/`. -/
def trimSlashes (cs : List Char) : List Char :=
  trimRightSlashes (trimLeftSlashes cs)

/-- Split on `/` (auxiliary, keeps empty segments, accumulator reversed). -/
def splitSlashAux (acc : List Char) : List Char → List (List Char)
  | [] => [acc.reverse]
  | c :: cs =>
    if c = '/' then acc.reverse :: splitSlashAux [] cs
    else splitSlashAux (c :: acc) cs

/-- Split a path text into its `/`-separated segments. -/
def splitSlash (cs : List Char) : List (List Char) := splitSlashAux [] cs

/-- Does `pat` occur as a prefix of `s`?  Returns the remainder on success. -/
def stripFront : List Char → List Char → Option (List Char)
  | [], s => some s
  | _ :: _, [] => none
  | p :: ps, c :: cs => if p = c then stripFront ps cs else none

/-- Fuel-indexed worker for `listReplace`; the fuel is an upper bound on
the number of characters still to be consumed, which makes the recursion
structural. -/
def listReplaceFuel (pat rep : List Char) : Nat → List Char → List Char
  | _, [] => []
  | 0, s => s
  | fuel + 1, c :: rest =>
    match stripFront pat (c :: rest) with
    | some rem =>
      if pat.isEmpty then c :: listReplaceFuel pat rep fuel rest
      else rep ++ listReplaceFuel pat rep fuel rem
    | none => c :: listReplaceFuel pat rep fuel rest

/-- Rust's `str::replace(pat, rep)`: replace every non-overlapping
occurrence of `pat`, scanning left to right.  (The generated code only
ever uses the non-empty pattern `{name}`.) -/
def listReplace (pat rep s : List Char) : List Char :=
  listReplaceFuel pat rep s.length s

/-- The `{name}` placeholder text for a parameter name, as produced by the
generated `concat!` expression. -/
def placeholder (name : List Char) : List Char := '{' :: name ++ ['}']

/-! ### Model of the `heck` crate's snake-case conversion

`to_snake_case` splits the input into words on non-alphanumeric
characters, splits each word again at lowercase-to-uppercase and
uppercase-to-lowercase camel boundaries, lowercases every chunk and joins
all chunks with `_`. -/

/-- Maximal alphanumeric runs of a character list (the "words" of the
`heck` transform); the accumulator holds the current run, reversed. -/
def wordsAux (acc : List Char) : List Char → List (List Char)
  | [] => if acc.isEmpty then [] else [acc.reverse]
  | c :: cs =>
    if c.isAlphanum then wordsAux (c :: acc) cs
    else if acc.isEmpty then wordsAux [] cs
    else acc.reverse :: wordsAux [] cs

/-- The words of a character list: maximal alphanumeric runs. -/
def wordsOf (cs : List Char) : List (List Char) := wordsAux [] cs

/-- The case mode tracked by the `heck` word scanner: whether the most
recent cased character of the current chunk was lowercase or uppercase. -/
inductive CaseMode where
  | boundary
  | lowerM
  | upperM
deriving DecidableEq

/-- Camel-boundary splitting of a single word, following `heck`'s
scanner: a chunk ends after a lowercase-mode character followed by an
uppercase one, and before an uppercase character that is followed by a
lowercase one while the previous character was also uppercase. -/
def chunksAux (mode : CaseMode) (acc : List Char) : List Char → List (List Char)
  | [] => []
  | [c] => [acc ++ [c]]
  | c :: next :: rest =>
    let nextMode :=
      if c.isLower then CaseMode.lowerM
      else if c.isUpper then CaseMode.upperM
      else mode
    if nextMode = CaseMode.lowerM ∧ next.isUpper then
      (acc ++ [c]) :: chunksAux CaseMode.boundary [] (next :: rest)
    else if mode = CaseMode.upperM ∧ c.isUpper ∧ next.isLower then
      acc :: chunksAux CaseMode.boundary [c] (next :: rest)
    else
      chunksAux nextMode (acc ++ [c]) (next :: rest)

/-- The camel chunks of one word. -/
def wordChunks (w : List Char) : List (List Char) := chunksAux .boundary [] w

/-- Modelled from the behaviour of the external `heck` crate:
`ToSnakeCase::to_snake_case` on a character list. -/
def snakeOf (cs : List Char) : List Char :=
  List.intercalate ['_'] (((wordsOf cs).flatMap wordChunks).map (List.map Char.toLower))

/-- `heck::ToSnakeCase` on strings, as used by `FnNameExpander`. -/
def toSnakeCase (s : String) : String := ⟨snakeOf s.data⟩

/-! ### Data model (`src/input.rs`) -/

/-- A source location; `0` stands for `Span::call_site()`. -/
abbrev Span := Nat

/-- A `syn::Ident`: its text together with its span. -/
structure Ident' where
  text : String
  sp : Span
deriving DecidableEq, Repr

/-- A `syn::LitStr`: its value together with its span. -/
structure LitStr where
  value : String
  sp : Span
deriving DecidableEq, Repr

/-- A `syn::Type`, kept as its token text. -/
abbrev RustType := String

/-- `HttpMethod`: the HTTP methods supported by the provider (closed set). -/
inductive HttpMethod where
  | GET
  | POST
  | PUT
  | DELETE
deriving DecidableEq, Repr

/-- `HttpMethod::as_str`: the lowercase method word. -/
def HttpMethod.as_str : HttpMethod → String
  | .GET => "get"
  | .POST => "post"
  | .PUT => "put"
  | .DELETE => "delete"

/-- The uppercased form of an identifier (`str::to_uppercase`; the
method identifiers involved are ASCII). -/
def asciiUpper (s : String) : String := ⟨s.data.map Char.toUpper⟩

/-- `impl Parse for HttpMethod`: parse an identifier, uppercase it and
match it against the four supported methods; anything else is an
"Unsupported HTTP method" error. -/
def HttpMethod.parse (s : String) : Except String HttpMethod :=
  let u := asciiUpper s
  if u = "GET" then .ok .GET
  else if u = "POST" then .ok .POST
  else if u = "PUT" then .ok .PUT
  else if u = "DELETE" then .ok .DELETE
  else .error ("Unsupported HTTP method: " ++ s)

/-- `EndpointDef`: one declared endpoint. -/
structure EndpointDef where
  method : HttpMethod
  res : Option RustType := none
  path : Option LitStr := none
  fn_name : Option Ident' := none
  req : Option RustType := none
  headers : Option RustType := none
  query_params : Option RustType := none
  path_params : Option RustType := none
deriving DecidableEq, Repr

/-- `HttpProviderInput`: the client type name plus the endpoint list. -/
structure HttpProviderInput where
  struct_name : Ident'
  endpoints : List EndpointDef
deriving DecidableEq, Repr

/-! ### Expanders (`src/expanders/method.rs`) -/

/-- `FnNameExpander::expand_fn_name_with_path`: the path contribution to a
derived operation name.  `path_str` is the path with leading slashes
already stripped by the caller. -/
def expandFnNameWithPath (d : EndpointDef) (path_str : String) : String :=
  if d.path_params.isSome then
    let param_names := extractParams path_str.data
    let base_path := removeParams path_str.data
    let base_path := trimSlashes (collapseOnce base_path)
    let base_part := base_path.map slashToUnderscore
    match param_names with
    | [] => ⟨base_part⟩
    | [n] =>
      let params_part := "by_".data ++ n
      if base_part.isEmpty then ⟨params_part⟩ else ⟨base_part ++ '_' :: params_part⟩
    | ns =>
      let params_part := "by_".data ++ List.intercalate "_and_".data ns
      if base_part.isEmpty then ⟨params_part⟩ else ⟨base_part ++ '_' :: params_part⟩
  else
    ⟨path_str.data.map slashToUnderscore⟩

/-- `FnNameExpander::expand`: the operation identifier.  An explicit
`fn_name` is returned verbatim; otherwise the name is derived from the
lowercase method word, the path and the presence of path parameters, and
snake-cased. -/
def expandFnName (d : EndpointDef) : Ident' :=
  match d.fn_name with
  | some name => name
  | none =>
    let method_str := d.method.as_str
    let name :=
      match d.path with
      | some path =>
        let path_str : String := ⟨trimLeftSlashes path.value.data⟩
        let path_part := expandFnNameWithPath d path_str
        toSnakeCase (method_str ++ "_" ++ path_part)
      | none => method_str
    { text := name, sp := match d.path with | some p => p.sp | none => 0 }

/-- One formal parameter of a generated operation: a read-only reference
(`name: &Ty`) or a by-value parameter (`name: Ty`). -/
inductive ParamDecl where
  | byRef (name : String) (ty : RustType)
  | byVal (name : String) (ty : RustType)
deriving DecidableEq, Repr

/-- `ParamsExpander::expand`: the ordered formal-parameter list of a
generated operation, pushed in the fixed order path_params, body,
query_params, headers. -/
def expandParams (d : EndpointDef) : List ParamDecl :=
  let params : List ParamDecl := []
  let params := match d.path_params with
    | some t => params ++ [.byRef "path_params" t]
    | none => params
  let params := match d.req with
    | some t => params ++ [.byRef "body" t]
    | none => params
  let params := match d.query_params with
    | some t => params ++ [.byRef "query_params" t]
    | none => params
  let params := match d.headers with
    | some t => params ++ [.byVal "headers" t]
    | none => params
  params

/-- The signature of one generated operation: its identifier, its
formal-parameter list and the success component of its return type. -/
structure MethodSig where
  name : Ident'
  params : List ParamDecl
  ret : RustType
deriving DecidableEq, Repr

/-- The signature emitted for one endpoint by
`TraitExpander::expand_trait_methods` (`src/expanders/interface.rs`):
name from `FnNameExpander`, parameters from `ParamsExpander`, return type
`res` or the unit type. -/
def traitMethodSig (d : EndpointDef) : MethodSig :=
  { name := expandFnName d
    params := expandParams d
    ret := d.res.getD "()" }

/-- The signature of the concrete method emitted by
`MethodExpander::expand` (`src/expanders/method.rs`): name from
`FnNameExpander`, parameters from `ParamsExpander`, return type `res` or
the unit type. -/
def implMethodSig (d : EndpointDef) : MethodSig :=
  { name := expandFnName d
    params := expandParams d
    ret := d.res.getD "()" }

/-! ### Macro-level errors and the top-level expander
(`src/error.rs`, `src/expanders/mod.rs`) -/

/-- A compile-time diagnostic: message plus source location (the payload
of `syn::Error::new`). -/
structure CompileDiag where
  message : String
  sp : Span
deriving DecidableEq, Repr

/-- `MacroError`: a wrapped `syn` error or the dedicated
no-endpoints-configured error. -/
inductive MacroError where
  | syn (err : CompileDiag)
  | noEndpointsConfigured (sp : Span)
deriving DecidableEq, Repr

/-- `MacroError::to_compile_error`: the diagnostic actually reported. -/
def MacroError.toCompileError : MacroError → CompileDiag
  | .syn err => err
  | .noEndpointsConfigured sp => ⟨"at least one endpoint must be defined", sp⟩

/-- The emitted unit: error-type name, trait name, client type name, and
the method signatures of the trait and of the concrete implementation. -/
structure Emitted where
  errorName : String
  traitName : String
  structName : String
  traitMethods : List MethodSig
  implMethods : List MethodSig
deriving DecidableEq, Repr

/-- `HttpProviderExpander::validate`: the only semantic validation —
the endpoint list must be non-empty. -/
def validateInput (input : HttpProviderInput) : Except MacroError Unit :=
  if input.endpoints.isEmpty then
    .error (.noEndpointsConfigured input.struct_name.sp)
  else .ok ()

/-- `HttpProviderExpander::expand`: validate, then assemble the error
type, the trait and the concrete implementation. -/
def expandProvider (input : HttpProviderInput) : Except MacroError Emitted :=
  match validateInput input with
  | .error e => .error e
  | .ok _ =>
    let error_name := input.struct_name.text ++ "Error"
    let trait_name := input.struct_name.text ++ "Trait"
    .ok { errorName := error_name
          traitName := trait_name
          structName := input.struct_name.text
          traitMethods := input.endpoints.map traitMethodSig
          implMethods := input.endpoints.map implMethodSig }

/-! ### Runtime semantics of the generated method bodies -/

/-- The error enumeration emitted by `ErrorExpander`
(`src/expanders/error.rs`); the transport error of the `Request` variant
is kept as its display text. -/
inductive GenError where
  | urlConstruction (msg : String)
  | request (msg : String)
  | http (status : Nat) (reason : String)
  | deserialization (msg : String)
deriving DecidableEq, Repr

/-- Modelled from the spec: the external base-URL type.  It carries a
scheme, a host and a path; `cannotBeABase` marks URLs on which relative
resolution fails. -/
structure Url where
  scheme : String
  host : String
  path : String
  cannotBeABase : Bool
deriving DecidableEq, Repr

/-- The textual form of a URL. -/
def Url.render (u : Url) : String := u.scheme ++ "://" ++ u.host ++ u.path

/-- Drop the final segment of a path (everything after the last `/`). -/
def dropLastSegment (cs : List Char) : List Char :=
  (cs.reverse.dropWhile (· ≠ '/')).reverse

/-- Modelled from the spec: relative-URL resolution ("join") of the
external base-URL type — a reference beginning with `/` fully replaces
the base URL's path component, any other reference is resolved against
the base path with its last segment dropped, and join failures surface as
an error message. -/
def Url.join (base : Url) (ref : String) : Except String Url :=
  if base.cannotBeABase then .error "cannot be a base"
  else
    match ref.data with
    | '/' :: _ => .ok { base with path := ref }
    | _ => .ok { base with path := ⟨dropLastSegment base.path.data ++ ref.data⟩ }

/-- The path string after the substitutions emitted by
`UrlExpander::expand_with_path_params`: for every captured name, in
capture order, `path.replace("{name}", &path_params.name.to_string())`,
where `vals` gives the `to_string` of each path-parameter field. -/
def substitutedPath (tmpl : String) (vals : String → String) : String :=
  ⟨(extractParams tmpl.data).foldl
    (fun acc n => listReplace (placeholder n) (vals ⟨n⟩).data acc) tmpl.data⟩

/-- The URL-construction logic emitted by `UrlExpander::expand`: no path
means the base URL cloned unchanged; a path without path parameters is
joined onto the base URL; with path parameters the substituted path is
joined, and join failures map to the `UrlConstruction` variant. -/
def urlLogic (d : EndpointDef) (base : Url) (vals : String → String) :
    Except GenError Url :=
  match d.path with
  | none => .ok base
  | some path =>
    if d.path_params.isSome then
      (Url.join base (substitutedPath path.value vals)).mapError
        (fun e => GenError.urlConstruction e)
    else
      (Url.join base path.value).mapError
        (fun e => GenError.urlConstruction e)

/-- A received HTTP response: numeric status code and raw body text. -/
structure HttpResponse where
  status : Nat
  body : String
deriving DecidableEq, Repr

/-- Modelled from the spec: the standard reason phrase table of the
external HTTP status type (`StatusCode::canonical_reason`); statuses
without a standard phrase yield `none`. -/
def canonicalReason (status : Nat) : Option String :=
  if status = 100 then some "Continue"
  else if status = 101 then some "Switching Protocols"
  else if status = 102 then some "Processing"
  else if status = 200 then some "OK"
  else if status = 201 then some "Created"
  else if status = 202 then some "Accepted"
  else if status = 203 then some "Non Authoritative Information"
  else if status = 204 then some "No Content"
  else if status = 205 then some "Reset Content"
  else if status = 206 then some "Partial Content"
  else if status = 207 then some "Multi-Status"
  else if status = 208 then some "Already Reported"
  else if status = 226 then some "IM Used"
  else if status = 300 then some "Multiple Choices"
  else if status = 301 then some "Moved Permanently"
  else if status = 302 then some "Found"
  else if status = 303 then some "See Other"
  else if status = 304 then some "Not Modified"
  else if status = 305 then some "Use Proxy"
  else if status = 307 then some "Temporary Redirect"
  else if status = 308 then some "Permanent Redirect"
  else if status = 400 then some "Bad Request"
  else if status = 401 then some "Unauthorized"
  else if status = 402 then some "Payment Required"
  else if status = 403 then some "Forbidden"
  else if status = 404 then some "Not Found"
  else if status = 405 then some "Method Not Allowed"
  else if status = 406 then some "Not Acceptable"
  else if status = 407 then some "Proxy Authentication Required"
  else if status = 408 then some "Request Timeout"
  else if status = 409 then some "Conflict"
  else if status = 410 then some "Gone"
  else if status = 411 then some "Length Required"
  else if status = 412 then some "Precondition Failed"
  else if status = 413 then some "Payload Too Large"
  else if status = 414 then some "URI Too Long"
  else if status = 415 then some "Unsupported Media Type"
  else if status = 416 then some "Range Not Satisfiable"
  else if status = 417 then some "Expectation Failed"
  else if status = 418 then some "I'm a teapot"
  else if status = 421 then some "Misdirected Request"
  else if status = 422 then some "Unprocessable Entity"
  else if status = 423 then some "Locked"
  else if status = 424 then some "Failed Dependency"
  else if status = 426 then some "Upgrade Required"
  else if status = 428 then some "Precondition Required"
  else if status = 429 then some "Too Many Requests"
  else if status = 431 then some "Request Header Fields Too Large"
  else if status = 451 then some "Unavailable For Legal Reasons"
  else if status = 500 then some "Internal Server Error"
  else if status = 501 then some "Not Implemented"
  else if status = 502 then some "Bad Gateway"
  else if status = 503 then some "Service Unavailable"
  else if status = 504 then some "Gateway Timeout"
  else if status = 505 then some "HTTP Version Not Supported"
  else if status = 506 then some "Variant Also Negotiates"
  else if status = 507 then some "Insufficient Storage"
  else if status = 508 then some "Loop Detected"
  else if status = 510 then some "Not Extended"
  else if status = 511 then some "Network Authentication Required"
  else none

/-- The response-interpretation logic emitted by
`ResponseExpander::expand`, starting from a received response: a status
outside the success range `200..=299` returns the `Http` variant built
from the status code and its canonical reason (or `"Unknown"`), without
consulting the body; on a success status, a declared `res` type decodes
the body (the decoder models the external JSON layer) with failures
mapped to `Deserialization`, while an absent `res` type returns the unit
result (`none`) without touching the body. -/
def responseLogic {α : Type} (dec : Option (String → Except String α))
    (resp : HttpResponse) : Except GenError (Option α) :=
  if ¬ (200 ≤ resp.status ∧ resp.status < 300) then
    .error (.http resp.status ((canonicalReason resp.status).getD "Unknown"))
  else
    match dec with
    | some d => ((d resp.body).map some).mapError (fun e => GenError.deserialization e)
    | none => .ok none

/-! ### Endpoint block parsing (`impl Parse for EndpointDef`) -/

/-- A raw field value as it sits in the token stream: a string literal,
an identifier, or a type. -/
inductive RawValue where
  | litS (value : String) (sp : Span)
  | identV (text : String) (sp : Span)
  | tyV (text : String)
deriving DecidableEq, Repr

/-- One `name: value` pair inside an endpoint block. -/
structure FieldEntry where
  name : String
  value : RawValue
deriving DecidableEq, Repr

/-- Parse a token as `syn::LitStr`. -/
def parseLitStrTok : RawValue → Except String LitStr
  | .litS v sp => .ok ⟨v, sp⟩
  | _ => .error "expected string literal"

/-- Parse a token as `syn::Ident`. -/
def parseIdentTok : RawValue → Except String Ident'
  | .identV t sp => .ok ⟨t, sp⟩
  | _ => .error "expected identifier"

/-- Parse a token as `syn::Type` (a bare identifier is also a type path). -/
def parseTypeTok : RawValue → Except String RustType
  | .tyV t => .ok t
  | .identV t _ => .ok t
  | _ => .error "expected type"

/-- Parse a token as an `HttpMethod`: an identifier matched
case-insensitively against the supported methods. -/
def parseMethodTok (v : RawValue) : Except String HttpMethod := do
  let i ← parseIdentTok v
  HttpMethod.parse i.text

/-- The mutable locals of `EndpointDef::parse` before the final
`method`-presence check: one `Option` per recognised field. -/
structure EndpointAcc where
  path : Option LitStr := none
  method : Option HttpMethod := none
  fn_name : Option Ident' := none
  req : Option RustType := none
  res : Option RustType := none
  headers : Option RustType := none
  query_params : Option RustType := none
  path_params : Option RustType := none
deriving DecidableEq, Repr

/-- One iteration of the field loop of `EndpointDef::parse`: match the
field name, parse the value in the corresponding shape and overwrite that
field; an unrecognised name is the "unexpected field" error. -/
def applyField (st : EndpointAcc) (e : FieldEntry) : Except String EndpointAcc :=
  if e.name = "path" then (parseLitStrTok e.value).map (fun l => { st with path := some l })
  else if e.name = "method" then (parseMethodTok e.value).map (fun m => { st with method := some m })
  else if e.name = "fn_name" then (parseIdentTok e.value).map (fun i => { st with fn_name := some i })
  else if e.name = "req" then (parseTypeTok e.value).map (fun t => { st with req := some t })
  else if e.name = "res" then (parseTypeTok e.value).map (fun t => { st with res := some t })
  else if e.name = "headers" then (parseTypeTok e.value).map (fun t => { st with headers := some t })
  else if e.name = "query_params" then (parseTypeTok e.value).map (fun t => { st with query_params := some t })
  else if e.name = "path_params" then (parseTypeTok e.value).map (fun t => { st with path_params := some t })
  else .error "unexpected field"

/-- The field loop of `EndpointDef::parse`. -/
def parseFields (st : EndpointAcc) : List FieldEntry → Except String EndpointAcc
  | [] => .ok st
  | e :: es =>
    match applyField st e with
    | .ok st' => parseFields st' es
    | .error m => .error m

/-- `EndpointDef::parse` on an already-tokenised field list: run the loop
from the all-`None` state, then require `method`. -/
def parseEndpointDef (entries : List FieldEntry) : Except String EndpointDef :=
  match parseFields {} entries with
  | .error m => .error m
  | .ok st =>
    match st.method with
    | none => .error "missing `method`"
    | some m =>
      .ok { method := m, res := st.res, path := st.path, fn_name := st.fn_name,
            req := st.req, headers := st.headers, query_params := st.query_params,
            path_params := st.path_params }

/-- The recognised field names, as an enumeration (used to state the
duplicate-field property). -/
inductive FName where
  | fPath
  | fMethod
  | fFnName
  | fReq
  | fRes
  | fHeaders
  | fQueryParams
  | fPathParams
deriving DecidableEq, Repr

/-- The source text of a recognised field name. -/
def FName.str : FName → String
  | .fPath => "path"
  | .fMethod => "method"
  | .fFnName => "fn_name"
  | .fReq => "req"
  | .fRes => "res"
  | .fHeaders => "headers"
  | .fQueryParams => "query_params"
  | .fPathParams => "path_params"

/-- A parsed field value, tagged by shape. -/
inductive FieldVal where
  | fvLit (l : LitStr)
  | fvMethod (m : HttpMethod)
  | fvIdent (i : Ident')
  | fvTy (t : RustType)
deriving DecidableEq, Repr

/-- Parse a raw value in the shape expected by a given field. -/
def parsedVal (f : FName) (v : RawValue) : Except String FieldVal :=
  match f with
  | .fPath => (parseLitStrTok v).map .fvLit
  | .fMethod => (parseMethodTok v).map .fvMethod
  | .fFnName => (parseIdentTok v).map .fvIdent
  | .fReq => (parseTypeTok v).map .fvTy
  | .fRes => (parseTypeTok v).map .fvTy
  | .fHeaders => (parseTypeTok v).map .fvTy
  | .fQueryParams => (parseTypeTok v).map .fvTy
  | .fPathParams => (parseTypeTok v).map .fvTy

/-- Overwrite one field of the accumulator with a parsed value (values of
the wrong shape leave the state unchanged; `applyField` never produces
them). -/
def setField (st : EndpointAcc) (f : FName) (w : FieldVal) : EndpointAcc :=
  match f, w with
  | .fPath, .fvLit l => { st with path := some l }
  | .fMethod, .fvMethod m => { st with method := some m }
  | .fFnName, .fvIdent i => { st with fn_name := some i }
  | .fReq, .fvTy t => { st with req := some t }
  | .fRes, .fvTy t => { st with res := some t }
  | .fHeaders, .fvTy t => { st with headers := some t }
  | .fQueryParams, .fvTy t => { st with query_params := some t }
  | .fPathParams, .fvTy t => { st with path_params := some t }
  | _, _ => st

/-- Read one field of the accumulator as a tagged value. -/
def getField (st : EndpointAcc) : FName → Option FieldVal
  | .fPath => st.path.map .fvLit
  | .fMethod => st.method.map .fvMethod
  | .fFnName => st.fn_name.map .fvIdent
  | .fReq => st.req.map .fvTy
  | .fRes => st.res.map .fvTy
  | .fHeaders => st.headers.map .fvTy
  | .fQueryParams => st.query_params.map .fvTy
  | .fPathParams => st.path_params.map .fvTy

/-! ### Specification-side name derivation (for the refinement claims) -/

/-- Modelled from the spec, step 5 of the Name Deriver: extract the
`{name}` tokens, remove them, collapse doubled separators, trim
leading/trailing separators, join the remaining segments with `_`, build
`by_…`/`by_…_and_…`, combine, prefix the lowercase method word, and
normalize to lower-snake-case. -/
def specNameWithParams (m : HttpMethod) (p : String) : String :=
  let names := extractParams p.data
  let base := trimSlashes (squeezeSlashes (removeParams p.data))
  let base_part := List.intercalate ['_'] (splitSlash base)
  let params_part :=
    match names with
    | [n] => "by_".data ++ n
    | ns => "by_".data ++ List.intercalate "_and_".data ns
  let combined := if base_part.isEmpty then params_part else base_part ++ '_' :: params_part
  ⟨snakeOf (m.as_str.data ++ '_' :: combined)⟩

/-- Strip one leading slash, if present (the spec's "strip leading
slash"). -/
def stripLeadingSlash (cs : List Char) : List Char :=
  match cs with
  | c :: r => if c = '/' then r else c :: r
  | [] => []

/-- Modelled from the spec, step 4 of the Name Deriver: strip the leading
slash, replace every remaining `/` with `_`, prefix the lowercase method
word and an underscore, and normalize to lower-snake-case. -/
def specNameNoParams (m : HttpMethod) (p : String) : String :=
  ⟨snakeOf (m.as_str.data ++ '_' :: (stripLeadingSlash p.data).map slashToUnderscore)⟩

/-- Decidable equality of `Except` results (used to evaluate the runtime
models at concrete inputs). -/
instance {ε α : Type} [DecidableEq ε] [DecidableEq α] : DecidableEq (Except ε α) := fun x y =>
  match x, y with
  | .ok a, .ok b => decidable_of_iff (a = b) ⟨fun h => h ▸ rfl, fun h => Except.ok.inj h⟩
  | .error a, .error b => decidable_of_iff (a = b) ⟨fun h => h ▸ rfl, fun h => Except.error.inj h⟩
  | .ok _, .error _ => isFalse fun h => Except.noConfusion h
  | .error _, .ok _ => isFalse fun h => Except.noConfusion h

/-! ### Example inputs used by claim witnesses -/

def exampleC1 : EndpointDef :=
  { method := .GET
    path := some ⟨"/users/{user_id}/posts/{post_id}", 0⟩
    path_params := some "UserPostPath" }

def exampleC3 : EndpointDef :=
  { method := .GET
    path := some ⟨"/users/{id}", 0⟩
    path_params := some "P" }

/-- The base URL used by the C3 witness. -/
def exampleBase : Url := ⟨"https", "api.example.com", "/", false⟩

/-- A sample decoder for the external JSON layer, used by witnesses. -/
def demoDecode (b : String) : Except String Nat :=
  if b = "{}" then .ok 0 else .error ("invalid body: " ++ b)

def exampleC6 : EndpointDef := { method := .GET, path := some ⟨"/users", 0⟩ }

def exampleC7 : EndpointDef :=
  { method := .POST
    path := some ⟨"/x/{y}", 3⟩
    fn_name := some ⟨"custom_op", 7⟩
    path_params := some "T" }

def exampleC8 : HttpProviderInput := ⟨⟨"Api", 5⟩, []⟩

def exampleEntries : List FieldEntry :=
  [⟨"path", .litS "/a" 1⟩, ⟨"method", .identV "GET" 2⟩, ⟨"path", .litS "/b" 3⟩]

def exampleEndpointAcc : EndpointAcc := { path := some ⟨"/b", 3⟩, method := some .GET }


/-! ### Lemmas: words of a character list -/

theorem wordsAux_nil (acc : List Char) :
    wordsAux acc [] = if acc.isEmpty then [] else [acc.reverse] := rfl

theorem wordsAux_cons (acc : List Char) (c : Char) (cs : List Char) :
    wordsAux acc (c :: cs) =
      if c.isAlphanum then wordsAux (c :: acc) cs
      else if acc.isEmpty then wordsAux [] cs
      else acc.reverse :: wordsAux [] cs := rfl

theorem wordsAux_append_sep {s : Char} (hs : s.isAlphanum = false) (b : List Char) :
    ∀ (a acc : List Char), wordsAux acc (a ++ s :: b) = wordsAux acc a ++ wordsAux [] b := by
  intro a
  induction a with
  | nil =>
    intro acc
    simp only [List.nil_append, wordsAux_cons, hs, wordsAux_nil]
    by_cases h : acc.isEmpty <;> simp [h]
  | cons c a ih =>
    intro acc
    simp only [List.cons_append, wordsAux_cons]
    by_cases hc : c.isAlphanum
    · simp [hc, ih]
    · by_cases h : acc.isEmpty <;> simp [hc, h, ih]

theorem wordsAux_all_sep {r : List Char} (hr : ∀ c ∈ r, c.isAlphanum = false) :
    ∀ acc, wordsAux acc r = wordsAux acc [] := by
  induction r with
  | nil => intro acc; rfl
  | cons c r ih =>
    intro acc
    have hc : c.isAlphanum = false := hr c (by simp)
    have hr' : ∀ c ∈ r, c.isAlphanum = false := fun c hm => hr c (by simp [hm])
    simp only [wordsAux_cons, hc, Bool.false_eq_true, if_false]
    by_cases h : acc.isEmpty
    · simp [h, ih hr', wordsAux_nil]
    · simp [h, ih hr', wordsAux_nil]

theorem wordsAux_append_all_sep {r : List Char} (hr : ∀ c ∈ r, c.isAlphanum = false) :
    ∀ (a acc : List Char), wordsAux acc (a ++ r) = wordsAux acc a := by
  intro a
  induction a with
  | nil => intro acc; simpa using wordsAux_all_sep hr acc
  | cons c a ih =>
    intro acc
    simp only [List.cons_append, wordsAux_cons]
    by_cases hc : c.isAlphanum
    · simp [hc, ih]
    · by_cases h : acc.isEmpty <;> simp [hc, h, ih]

theorem wordsOf_cons_sep {c : Char} (hc : c.isAlphanum = false) (cs : List Char) :
    wordsOf (c :: cs) = wordsOf cs := by
  simp [wordsOf, wordsAux_cons, hc]

theorem wordsOf_sep_prefix {r : List Char} (hr : ∀ c ∈ r, c.isAlphanum = false)
    (cs : List Char) : wordsOf (r ++ cs) = wordsOf cs := by
  induction r with
  | nil => rfl
  | cons c r ih =>
    have hc : c.isAlphanum = false := hr c (by simp)
    have hr' : ∀ c ∈ r, c.isAlphanum = false := fun c hm => hr c (by simp [hm])
    simpa [wordsOf_cons_sep hc] using ih hr'

theorem wordsAux_map_preserve {f : Char → Char}
    (h1 : ∀ c, (f c).isAlphanum = c.isAlphanum)
    (h2 : ∀ c, c.isAlphanum = true → f c = c) :
    ∀ (cs acc : List Char), wordsAux acc (cs.map f) = wordsAux acc cs := by
  intro cs
  induction cs with
  | nil => intro acc; rfl
  | cons c cs ih =>
    intro acc
    simp only [List.map_cons, wordsAux_cons, h1 c]
    by_cases hc : c.isAlphanum
    · simp [hc, h2 c hc, ih]
    · by_cases h : acc.isEmpty <;> simp [hc, h, ih]

theorem wordsOf_map_slashToUnderscore (cs : List Char) :
    wordsOf (cs.map slashToUnderscore) = wordsOf cs := by
  apply wordsAux_map_preserve
  · intro c
    by_cases h : c = '/' <;> simp [slashToUnderscore, h]
  · intro c hc
    by_cases h : c = '/'
    · subst h; simp at hc
    · simp [slashToUnderscore, h]

/-! ### Lemmas: slash collapsing, trimming, splitting -/

theorem wordsAux_collapseOnce :
    ∀ (cs acc : List Char), wordsAux acc (collapseOnce cs) = wordsAux acc cs := by
  intro cs
  induction cs using collapseOnce.induct with
  | case1 => intro acc; rfl
  | case2 c => intro acc; rfl
  | case3 c c' rest h ih =>
    intro acc
    obtain ⟨hc, hc'⟩ := h
    subst hc; subst hc'
    simp only [collapseOnce, and_self, if_true, reduceIte]
    rw [wordsAux_cons, wordsAux_cons, wordsAux_cons]
    have hs : ('/').isAlphanum = false := by decide
    by_cases h : acc.isEmpty <;> simp [hs, h, ih, wordsAux_cons]
  | case4 c c' rest h ih =>
    intro acc
    simp only [collapseOnce, if_neg h]
    rw [wordsAux_cons, wordsAux_cons]
    by_cases hc : c.isAlphanum
    · simp [hc, ih]
    · by_cases h' : acc.isEmpty <;> simp [hc, h', ih]

theorem wordsAux_squeezeSlashes :
    ∀ (cs acc : List Char), wordsAux acc (squeezeSlashes cs) = wordsAux acc cs := by
  intro cs
  induction cs using squeezeSlashes.induct with
  | case1 => intro acc; rfl
  | case2 c => intro acc; rfl
  | case3 c c' rest h ih =>
    intro acc
    obtain ⟨hc, hc'⟩ := h
    subst hc; subst hc'
    simp only [squeezeSlashes, and_self, if_true, reduceIte]
    rw [ih, wordsAux_cons, wordsAux_cons]
    have hs : ('/').isAlphanum = false := by decide
    by_cases h : acc.isEmpty <;> simp [hs, h, wordsAux_cons]
  | case4 c c' rest h ih =>
    intro acc
    simp only [squeezeSlashes, if_neg h]
    rw [wordsAux_cons, wordsAux_cons]
    by_cases hc : c.isAlphanum
    · simp [hc, ih]
    · by_cases h' : acc.isEmpty <;> simp [hc, h', ih]

theorem wordsOf_trimLeftSlashes (cs : List Char) :
    wordsOf (trimLeftSlashes cs) = wordsOf cs := by
  induction cs with
  | nil => rfl
  | cons c cs ih =>
    by_cases h : c = '/'
    · subst h
      have hs : ('/').isAlphanum = false := by decide
      simpa [trimLeftSlashes, wordsOf_cons_sep hs] using ih
    · simp [trimLeftSlashes, h]

theorem trimRightSlashes_decomp (cs : List Char) :
    ∃ r, cs = trimRightSlashes cs ++ r ∧ ∀ c ∈ r, c = '/' := by
  refine ⟨(cs.reverse.takeWhile (· = '/')).reverse, ?_, ?_⟩
  · have h := List.takeWhile_append_dropWhile (p := (· = '/')) (l := cs.reverse)
    calc cs = cs.reverse.reverse := (cs.reverse_reverse).symm
      _ = (cs.reverse.takeWhile (· = '/') ++ cs.reverse.dropWhile (· = '/')).reverse := by
            rw [h]
      _ = trimRightSlashes cs ++ (cs.reverse.takeWhile (· = '/')).reverse := by
            rw [List.reverse_append]; rfl
  · intro c hc
    have := List.mem_takeWhile_imp (List.mem_reverse.mp hc)
    simpa using this

theorem wordsOf_trimRightSlashes (cs : List Char) :
    wordsOf (trimRightSlashes cs) = wordsOf cs := by
  obtain ⟨r, hdec, hr⟩ := trimRightSlashes_decomp cs
  have hr' : ∀ c ∈ r, c.isAlphanum = false := by
    intro c hc; rw [hr c hc]; decide
  conv_rhs => rw [hdec]
  exact (wordsAux_append_all_sep hr' (trimRightSlashes cs) []).symm

theorem wordsOf_trimSlashes (cs : List Char) :
    wordsOf (trimSlashes cs) = wordsOf cs := by
  rw [trimSlashes, wordsOf_trimRightSlashes, wordsOf_trimLeftSlashes]

/-! ### Lemmas: all-slash characterizations and segment joining -/

theorem collapseOnce_all_slash (cs : List Char) :
    (∀ c ∈ collapseOnce cs, c = '/') ↔ (∀ c ∈ cs, c = '/') := by
  induction cs using collapseOnce.induct with
  | case1 => simp [collapseOnce]
  | case2 c => simp [collapseOnce]
  | case3 c c' rest h ih =>
    obtain ⟨hc, hc'⟩ := h
    subst hc; subst hc'
    simp only [collapseOnce, and_self, if_true, reduceIte]
    simp [ih]
  | case4 c c' rest h ih =>
    simp only [collapseOnce, if_neg h]
    simp only [List.mem_cons, forall_eq_or_imp] at ih ⊢
    tauto
  
theorem squeezeSlashes_all_slash (cs : List Char) :
    (∀ c ∈ squeezeSlashes cs, c = '/') ↔ (∀ c ∈ cs, c = '/') := by
  induction cs using squeezeSlashes.induct with
  | case1 => simp [squeezeSlashes]
  | case2 c => simp [squeezeSlashes]
  | case3 c c' rest h ih =>
    obtain ⟨hc, hc'⟩ := h
    subst hc; subst hc'
    simp only [squeezeSlashes, and_self, if_true, reduceIte]
    simp only [List.mem_cons, forall_eq_or_imp] at ih ⊢
    tauto
  | case4 c c' rest h ih =>
    simp only [squeezeSlashes, if_neg h]
    simp only [List.mem_cons, forall_eq_or_imp] at ih ⊢
    tauto

theorem trimLeftSlashes_eq_nil_iff (cs : List Char) :
    trimLeftSlashes cs = [] ↔ ∀ c ∈ cs, c = '/' := by
  simp [trimLeftSlashes, List.dropWhile_eq_nil_iff]

theorem trimRightSlashes_eq_nil_iff (cs : List Char) :
    trimRightSlashes cs = [] ↔ ∀ c ∈ cs, c = '/' := by
  constructor
  · intro h c hc
    have h' : cs.reverse.dropWhile (· = '/') = [] := by
      have := congrArg List.reverse h
      simpa [trimRightSlashes] using this
    have := (List.dropWhile_eq_nil_iff).mp h' c (List.mem_reverse.mpr hc)
    simpa using this
  · intro h
    have h' : cs.reverse.dropWhile (· = '/') = [] := by
      rw [List.dropWhile_eq_nil_iff]
      intro c hc
      simpa using h c (List.mem_reverse.mp hc)
    simp [trimRightSlashes, h']

theorem trimSlashes_eq_nil_iff (cs : List Char) :
    trimSlashes cs = [] ↔ ∀ c ∈ cs, c = '/' := by
  rw [trimSlashes, trimRightSlashes_eq_nil_iff, trimLeftSlashes]
  constructor
  · intro h c hc
    rw [← List.takeWhile_append_dropWhile (p := (· = '/')) (l := cs)] at hc
    rcases List.mem_append.mp hc with hm | hm
    · simpa using List.mem_takeWhile_imp hm
    · exact h c hm
  · intro h c hc
    exact h c (List.dropWhile_sublist (· = '/') |>.subset hc)


theorem splitSlashAux_ne_nil (cs : List Char) : ∀ acc, splitSlashAux acc cs ≠ [] := by
  induction cs with
  | nil => intro acc; simp [splitSlashAux]
  | cons c cs ih =>
    intro acc
    by_cases h : c = '/' <;> simp [splitSlashAux, h, ih]

theorem intercalate_cons_cons (sep x y : List Char) (zs : List (List Char)) :
    List.intercalate sep (x :: y :: zs) = x ++ sep ++ List.intercalate sep (y :: zs) := by
  simp [List.intercalate, List.intersperse]

theorem intercalate_splitSlashAux (cs : List Char) :
    ∀ acc, List.intercalate ['_'] (splitSlashAux acc cs) =
      acc.reverse ++ cs.map slashToUnderscore := by
  induction cs with
  | nil => intro acc; simp [splitSlashAux, List.intercalate]
  | cons c cs ih =>
    intro acc
    by_cases h : c = '/'
    · subst h
      obtain ⟨y, ys, hy⟩ := List.exists_cons_of_ne_nil (splitSlashAux_ne_nil cs [])
      simp only [splitSlashAux, reduceIte, hy]
      have h2 : List.intercalate ['_'] (y :: ys) = cs.map slashToUnderscore := by
        have := ih []
        rwa [hy] at this
      rw [intercalate_cons_cons, h2]
      simp [slashToUnderscore]
    · simp only [splitSlashAux, if_neg h]
      rw [ih]
      simp [slashToUnderscore, h, List.reverse_cons]

theorem intercalate_splitSlash (cs : List Char) :
    List.intercalate ['_'] (splitSlash cs) = cs.map slashToUnderscore := by
  simpa using intercalate_splitSlashAux cs []

/-! ### Lemmas: the parameter scanner and leading slashes -/

theorem scanGo_none_cons_ne {c : Char} (h : ¬ c = '{') (cs : List Char) :
    scanGo none (c :: cs) = ((scanGo none cs).1, c :: (scanGo none cs).2) := by
  simp [scanGo, h]

theorem trimLeftSlashes_cons_slash (cs : List Char) :
    trimLeftSlashes ('/' :: cs) = trimLeftSlashes cs := by
  simp [trimLeftSlashes]

theorem takeWhile_slash_cons_slash (cs : List Char) :
    ('/' :: cs).takeWhile (· = '/') = '/' :: cs.takeWhile (· = '/') := by
  simp [List.takeWhile_cons]

theorem extractParams_trimLeftSlashes (cs : List Char) :
    extractParams (trimLeftSlashes cs) = extractParams cs := by
  induction cs with
  | nil => rfl
  | cons c cs ih =>
    by_cases h : c = '/'
    · subst h
      have hne : ¬ ('/' : Char) = '{' := by decide
      rw [trimLeftSlashes_cons_slash, ih]
      show extractParams cs = extractParams ('/' :: cs)
      rw [extractParams, extractParams, scanGo_none_cons_ne hne]
    · simp [trimLeftSlashes, h]

theorem removeParams_trimLeftSlashes (cs : List Char) :
    removeParams cs = cs.takeWhile (· = '/') ++ removeParams (trimLeftSlashes cs) := by
  induction cs with
  | nil => rfl
  | cons c cs ih =>
    by_cases h : c = '/'
    · subst h
      have hne : ¬ ('/' : Char) = '{' := by decide
      rw [takeWhile_slash_cons_slash, trimLeftSlashes_cons_slash]
      show removeParams ('/' :: cs) = _
      rw [removeParams, scanGo_none_cons_ne hne]
      simp only [List.cons_append]
      rw [← removeParams, ih]
    · simp [trimLeftSlashes, List.takeWhile_cons, h]

theorem takeWhile_slash_all (cs : List Char) :
    ∀ c ∈ cs.takeWhile (· = '/'), c = '/' := by
  intro c hc
  simpa using List.mem_takeWhile_imp hc

/-! ### Lemmas: snake-case congruence -/

theorem snakeOf_congr {a b : List Char} (h : wordsOf a = wordsOf b) :
    snakeOf a = snakeOf b := by
  simp only [snakeOf, h]

theorem wordsOf_append_sep {s : Char} (hs : s.isAlphanum = false) (a b : List Char) :
    wordsOf (a ++ s :: b) = wordsOf a ++ wordsOf b :=
  wordsAux_append_sep hs b a []

/-! ### The core equivalence between the code's and the spec's base-part
handling in name derivation with path parameters -/

theorem removeParams_all_slash_iff (cs : List Char) :
    (∀ c ∈ removeParams (trimLeftSlashes cs), c = '/') ↔
      (∀ c ∈ removeParams cs, c = '/') := by
  rw [removeParams_trimLeftSlashes cs]
  constructor
  · intro h c hc
    rcases List.mem_append.mp hc with hm | hm
    · exact takeWhile_slash_all cs c hm
    · exact h c hm
  · intro h c hc
    exact h c (List.mem_append.mpr (Or.inr hc))

theorem combined_words_eq (cs pp : List Char) :
    wordsOf
      ((fun bp => if bp.isEmpty then pp else bp ++ '_' :: pp)
        ((trimSlashes (collapseOnce (removeParams (trimLeftSlashes cs)))).map
          slashToUnderscore)) =
    wordsOf
      ((fun bp => if bp.isEmpty then pp else bp ++ '_' :: pp)
        (List.intercalate ['_']
          (splitSlash (trimSlashes (squeezeSlashes (removeParams cs)))))) := by
  have hus : ('_').isAlphanum = false := by decide
  have hbs : List.intercalate ['_'] (splitSlash (trimSlashes (squeezeSlashes (removeParams cs))))
      = (trimSlashes (squeezeSlashes (removeParams cs))).map slashToUnderscore :=
    intercalate_splitSlash _
  have hw_c : wordsOf ((trimSlashes (collapseOnce (removeParams (trimLeftSlashes cs)))).map
      slashToUnderscore) = wordsOf (removeParams (trimLeftSlashes cs)) := by
    rw [wordsOf_map_slashToUnderscore, wordsOf_trimSlashes]
    exact wordsAux_collapseOnce _ []
  have hw_rm : wordsOf (removeParams cs) = wordsOf (removeParams (trimLeftSlashes cs)) := by
    rw [removeParams_trimLeftSlashes cs]
    refine wordsOf_sep_prefix ?_ _
    intro c hc
    rw [takeWhile_slash_all cs c hc]
    decide
  have hsq : wordsOf (squeezeSlashes (removeParams cs)) = wordsOf (removeParams cs) :=
    wordsAux_squeezeSlashes _ []
  have hw_s : wordsOf ((trimSlashes (squeezeSlashes (removeParams cs))).map slashToUnderscore)
      = wordsOf (removeParams (trimLeftSlashes cs)) := by
    rw [wordsOf_map_slashToUnderscore, wordsOf_trimSlashes, hsq]
    exact hw_rm
  have hempty_c : ((trimSlashes (collapseOnce (removeParams (trimLeftSlashes cs)))).map
      slashToUnderscore) = [] ↔ (∀ c ∈ removeParams (trimLeftSlashes cs), c = '/') := by
    rw [List.map_eq_nil_iff, trimSlashes_eq_nil_iff]
    exact collapseOnce_all_slash _
  have hempty_s : ((trimSlashes (squeezeSlashes (removeParams cs))).map slashToUnderscore)
      = [] ↔ (∀ c ∈ removeParams (trimLeftSlashes cs), c = '/') := by
    rw [List.map_eq_nil_iff, trimSlashes_eq_nil_iff, squeezeSlashes_all_slash]
    exact (removeParams_all_slash_iff cs).symm
  simp only [hbs]
  by_cases h : (∀ c ∈ removeParams (trimLeftSlashes cs), c = '/')
  · have h1 := hempty_c.mpr h
    have h2 := hempty_s.mpr h
    simp [h1, h2]
  · have h1 : ¬ ((trimSlashes (collapseOnce (removeParams (trimLeftSlashes cs)))).map
        slashToUnderscore) = [] := fun hh => h (hempty_c.mp hh)
    have h2 : ¬ ((trimSlashes (squeezeSlashes (removeParams cs))).map slashToUnderscore)
        = [] := fun hh => h (hempty_s.mp hh)
    simp only [List.isEmpty_iff, h1, h2, if_false, reduceIte]
    rw [wordsOf_append_sep hus, wordsOf_append_sep hus, hw_c, hw_s]

theorem string_mk_ite (P : Prop) [Decidable P] (X Y : List Char) :
    (if P then (⟨X⟩ : String) else ⟨Y⟩) = ⟨if P then X else Y⟩ :=
  (apply_ite String.mk P X Y).symm

theorem toSnakeCase_method_concat (a : String) (X : List Char) :
    toSnakeCase (a ++ "_" ++ (⟨X⟩ : String)) = ⟨snakeOf (a.data ++ '_' :: X)⟩ := by
  have hd : (a ++ "_" ++ (⟨X⟩ : String)).data = a.data ++ '_' :: X := by
    simp [String.data_append]
  simp only [toSnakeCase, hd]

theorem expandFnName_params_eq_spec (d : EndpointDef) (p : LitStr)
    (hfn : d.fn_name = none) (hp : d.path = some p)
    (hpp : d.path_params.isSome = true)
    (hnames : extractParams p.value.data ≠ []) :
    (expandFnName d).text = specNameWithParams d.method p.value := by
  have hus : ('_').isAlphanum = false := by decide
  have hEx : extractParams (trimLeftSlashes p.value.data) = extractParams p.value.data :=
    extractParams_trimLeftSlashes p.value.data
  simp only [expandFnName, hfn, hp]
  simp only [expandFnNameWithPath, hpp, if_true, reduceIte]
  rcases hE : extractParams p.value.data with _ | ⟨n, rest⟩
  · exact absurd hE hnames
  · rcases rest with _ | ⟨n', rest'⟩
    · -- exactly one captured name
      simp only [hEx, hE]
      rw [string_mk_ite, toSnakeCase_method_concat]
      simp only [specNameWithParams, hE]
      apply congrArg String.mk
      apply snakeOf_congr
      rw [wordsOf_append_sep hus, wordsOf_append_sep hus]
      exact congrArg (wordsOf d.method.as_str.data ++ ·)
        (combined_words_eq p.value.data ("by_".data ++ n))
    · -- several captured names
      simp only [hEx, hE]
      rw [string_mk_ite, toSnakeCase_method_concat]
      simp only [specNameWithParams, hE]
      apply congrArg String.mk
      apply snakeOf_congr
      rw [wordsOf_append_sep hus, wordsOf_append_sep hus]
      exact congrArg (wordsOf d.method.as_str.data ++ ·)
        (combined_words_eq p.value.data
          ("by_".data ++ List.intercalate "_and_".data (n :: n' :: rest')))

/-! ### Name derivation without path parameters -/

theorem wordsOf_stripLeadingSlash (cs : List Char) :
    wordsOf (stripLeadingSlash cs) = wordsOf cs := by
  match cs with
  | [] => rfl
  | c :: r =>
    by_cases h : c = '/'
    · subst h
      have hs : ('/').isAlphanum = false := by decide
      simp [stripLeadingSlash, wordsOf_cons_sep hs]
    · simp [stripLeadingSlash, h]

theorem expandFnName_no_path (d : EndpointDef)
    (hfn : d.fn_name = none) (hp : d.path = none) :
    expandFnName d = ⟨d.method.as_str, 0⟩ := by
  simp [expandFnName, hfn, hp]

theorem expandFnName_no_params_eq_spec (d : EndpointDef) (p : LitStr)
    (hfn : d.fn_name = none) (hp : d.path = some p)
    (hpp : d.path_params = none) :
    (expandFnName d).text = specNameNoParams d.method p.value := by
  have hus : ('_').isAlphanum = false := by decide
  simp only [expandFnName, hfn, hp]
  simp only [expandFnNameWithPath, hpp, Option.isSome_none, Bool.false_eq_true, if_false,
    reduceIte]
  rw [toSnakeCase_method_concat]
  simp only [specNameNoParams]
  apply congrArg String.mk
  apply snakeOf_congr
  rw [wordsOf_append_sep hus, wordsOf_append_sep hus]
  apply congrArg (wordsOf d.method.as_str.data ++ ·)
  rw [wordsOf_map_slashToUnderscore, wordsOf_map_slashToUnderscore,
    wordsOf_stripLeadingSlash]
  exact wordsOf_trimLeftSlashes p.value.data

/-! ### Lemmas: the endpoint field loop -/

theorem applyField_eq (st : EndpointAcc) (f : FName) (v : RawValue) :
    applyField st ⟨f.str, v⟩ = (parsedVal f v).map (fun w => setField st f w) := by
  cases f
  case fPath =>
    cases h : parseLitStrTok v <;> simp [applyField, parsedVal, FName.str, h, setField, Except.map]
  case fMethod =>
    cases h : parseMethodTok v <;> simp [applyField, parsedVal, FName.str, h, setField, Except.map]
  case fFnName =>
    cases h : parseIdentTok v <;> simp [applyField, parsedVal, FName.str, h, setField, Except.map]
  case fReq =>
    cases h : parseTypeTok v <;> simp [applyField, parsedVal, FName.str, h, setField, Except.map]
  case fRes =>
    cases h : parseTypeTok v <;> simp [applyField, parsedVal, FName.str, h, setField, Except.map]
  case fHeaders =>
    cases h : parseTypeTok v <;> simp [applyField, parsedVal, FName.str, h, setField, Except.map]
  case fQueryParams =>
    cases h : parseTypeTok v <;> simp [applyField, parsedVal, FName.str, h, setField, Except.map]
  case fPathParams =>
    cases h : parseTypeTok v <;> simp [applyField, parsedVal, FName.str, h, setField, Except.map]

theorem except_map_ok {ε α β : Type} {g : α → β} {x : Except ε α} {w : β}
    (h : x.map g = .ok w) : ∃ a, x = .ok a ∧ w = g a := by
  cases x with
  | error e => simp [Except.map] at h
  | ok a =>
    refine ⟨a, rfl, ?_⟩
    have h' : Except.ok (ε := ε) (g a) = Except.ok w := by simpa [Except.map] using h
    exact (Except.ok.inj h').symm

theorem getField_setField_of_parsed {f : FName} {v : RawValue} {w : FieldVal}
    (h : parsedVal f v = .ok w) (st : EndpointAcc) :
    getField (setField st f w) f = some w := by
  cases f <;> simp only [parsedVal] at h <;>
    (obtain ⟨a, hx, hw⟩ := except_map_ok h; subst hw; simp [setField, getField])

theorem parseFields_last_wins :
    ∀ (mid : List FieldEntry) (st : EndpointAcc) (f : FName) (v₂ : RawValue) (w₂ : FieldVal),
      parsedVal f v₂ = .ok w₂ →
      (∀ e ∈ mid, e.name ≠ f.str ∧ ∃ f' : FName, e.name = f'.str ∧
        ∃ w, parsedVal f' e.value = .ok w) →
      ∃ st', parseFields st (mid ++ [⟨f.str, v₂⟩]) = .ok st' ∧ getField st' f = some w₂ := by
  intro mid
  induction mid with
  | nil =>
    intro st f v₂ w₂ h2 _
    refine ⟨setField st f w₂, ?_, getField_setField_of_parsed h2 st⟩
    simp [parseFields, applyField_eq, h2, Except.map]
  | cons e mid ih =>
    intro st f v₂ w₂ h2 hmid
    obtain ⟨hne, f', hname, w, hw⟩ := hmid e (by simp)
    have he : applyField st e = .ok (setField st f' w) := by
      have hev : e = ⟨f'.str, e.value⟩ := by
        cases e with
        | mk nm vv => simp_all
      rw [hev, applyField_eq, hw]
      rfl
    obtain ⟨st', h1, h3⟩ :=
      ih (setField st f' w) f v₂ w₂ h2 (fun e' he' => hmid e' (by simp [he']))
    exact ⟨st', by simp [parseFields, he, h1], h3⟩

/-! ## The claims -/

/-- Claim C1: with `fn_name` absent, `path` present and `path_params`
present, the derived identifier is computed by extracting the `{name}`
tokens in order, removing them, collapsing doubled separators, trimming
leading/trailing separators, joining the remaining segments with `_`,
building `by_<n>` / `by_<n1>_and_<n2>_…`, combining, prefixing the
lowercase method word and normalizing to lower-snake-case; in particular
GET `/users/{user_id}/posts/{post_id}` derives
`get_users_posts_by_user_id_and_post_id`. -/
theorem claim_C1 :
    (∀ (d : EndpointDef) (p : LitStr),
      d.fn_name = none → d.path = some p → d.path_params.isSome = true →
      extractParams p.value.data ≠ [] →
      (expandFnName d).text = specNameWithParams d.method p.value) ∧
    (expandFnName exampleC1).text = "get_users_posts_by_user_id_and_post_id" := by
  constructor
  · intro d p h1 h2 h3 h4
    exact expandFnName_params_eq_spec d p h1 h2 h3 h4
  · decide

/-- Witness for C1: the general statement instantiated at the GET
`/users/{user_id}/posts/{post_id}` endpoint. -/
theorem claim_C1_witness :
    (expandFnName exampleC1).text
      = specNameWithParams .GET "/users/{user_id}/posts/{post_id}" :=
  claim_C1.1 exampleC1 ⟨"/users/{user_id}/posts/{post_id}", 0⟩ rfl rfl rfl (by decide)

/-- Claim C2: the formal parameter list is always path_params (by
reference), then the body (by reference, named `body`, distinct from
`path_params`), then query_params (by reference), then headers (by
value), each omitted exactly when the corresponding field is absent; and
the trait declaration and the concrete implementation have identical
names, parameter lists and return types for every endpoint. -/
theorem claim_C2 :
    (∀ d : EndpointDef, expandParams d =
      (d.path_params.toList.map (fun t => ParamDecl.byRef "path_params" t)) ++
      (d.req.toList.map (fun t => ParamDecl.byRef "body" t)) ++
      (d.query_params.toList.map (fun t => ParamDecl.byRef "query_params" t)) ++
      (d.headers.toList.map (fun t => ParamDecl.byVal "headers" t))) ∧
    (∀ d : EndpointDef, traitMethodSig d = implMethodSig d) ∧
    (∀ input : HttpProviderInput,
      input.endpoints.map traitMethodSig = input.endpoints.map implMethodSig) := by
  refine ⟨?_, ?_, ?_⟩
  · intro d
    cases hp : d.path_params <;> cases hr : d.req <;> cases hq : d.query_params <;>
      cases hh : d.headers <;> simp [expandParams, hp, hr, hq, hh]
  · intro d
    rfl
  · intro input
    rfl

/-- Claim C3: with no `path` the request URL is the base URL unchanged;
with a `path` and no `path_params` the template is joined onto the base
URL and a join failure yields `UrlConstruction` with the underlying
message; with `path_params` every `{name}` token is replaced by the raw
textual value of the corresponding field (no percent-encoding) before the
same join. -/
theorem claim_C3 :
    (∀ (d : EndpointDef) (base : Url) (vals : String → String),
      d.path = none → urlLogic d base vals = .ok base) ∧
    (∀ (d : EndpointDef) (p : LitStr) (base : Url) (vals : String → String),
      d.path = some p → d.path_params = none →
      urlLogic d base vals
        = (Url.join base p.value).mapError (fun e => GenError.urlConstruction e)) ∧
    (∀ (d : EndpointDef) (p : LitStr) (base : Url) (vals : String → String) (m : String),
      d.path = some p → d.path_params = none → Url.join base p.value = .error m →
      urlLogic d base vals = .error (.urlConstruction m)) ∧
    (∀ (d : EndpointDef) (p : LitStr) (t : RustType) (base : Url) (vals : String → String),
      d.path = some p → d.path_params = some t →
      urlLogic d base vals
        = (Url.join base (substitutedPath p.value vals)).mapError
            (fun e => GenError.urlConstruction e)) ∧
    substitutedPath "/users/{id}" (fun _ => "a b") = "/users/a b" := by
  refine ⟨?_, ?_, ?_, ?_, ?_⟩
  · intro d base vals h
    simp [urlLogic, h]
  · intro d p base vals h1 h2
    simp [urlLogic, h1, h2]
  · intro d p base vals m h1 h2 h3
    simp [urlLogic, h1, h2, h3, Except.mapError]
  · intro d p t base vals h1 h2
    simp [urlLogic, h1, h2]
  · decide

/-- Witness for C3: GET `/users/{id}` with path-parameter value `42`
against `https://api.example.com/` resolves to a URL whose text ends in
`/users/42`. -/
theorem claim_C3_witness :
    urlLogic exampleC3 exampleBase (fun _ => toString (42 : Nat))
      = .ok ⟨"https", "api.example.com", "/users/42", false⟩ ∧
    "/users/42".data.isSuffixOf
      (Url.render ⟨"https", "api.example.com", "/users/42", false⟩).data = true :=
  ⟨(claim_C3.2.2.2.1 exampleC3 ⟨"/users/{id}", 0⟩ "P" exampleBase
      (fun _ => toString (42 : Nat)) rfl rfl).trans (by decide),
   by decide⟩

/-- Claim C4: on a success-range status, a declared `res` decodes the
body with failures mapped to `Deserialization` carrying the underlying
message, and an absent `res` returns the unit result for every body. -/
theorem claim_C4 :
    ∀ {α : Type} (decode : String → Except String α) (resp : HttpResponse),
      200 ≤ resp.status → resp.status < 300 →
      (responseLogic (some decode) resp
          = ((decode resp.body).map some).mapError (fun e => GenError.deserialization e)) ∧
      (∀ m, decode resp.body = .error m →
        responseLogic (some decode) resp = .error (.deserialization m)) ∧
      responseLogic (α := α) none resp = .ok none := by
  intro α decode resp h1 h2
  have hc : 200 ≤ resp.status ∧ resp.status < 300 := ⟨h1, h2⟩
  refine ⟨?_, ?_, ?_⟩
  · simp [responseLogic, hc]
  · intro m hm
    simp [responseLogic, hc, hm, Except.mapError, Except.map]
  · simp [responseLogic, hc]

/-- Witness for C4: a 204 empty-body response with no declared `res`
yields the unit result (no decode error), and a malformed body with a
declared `res` yields `Deserialization` with the decoder's message. -/
theorem claim_C4_witness :
    responseLogic (α := Nat) none ⟨204, ""⟩ = .ok none ∧
    responseLogic (some demoDecode) ⟨200, "oops"⟩
      = .error (.deserialization "invalid body: oops") :=
  ⟨(claim_C4 demoDecode ⟨204, ""⟩ (by decide) (by decide)).2.2,
   (claim_C4 demoDecode ⟨200, "oops"⟩ (by decide) (by decide)).2.1
      "invalid body: oops" (by decide)⟩

/-- Claim C5: a status outside the success range yields the `Http` error
with the numeric status and the standard reason phrase (or `"Unknown"`),
and the body is never consulted. -/
theorem claim_C5 :
    ∀ {α : Type} (dec : Option (String → Except String α)) (resp : HttpResponse),
      ¬ (200 ≤ resp.status ∧ resp.status < 300) →
      responseLogic dec resp
        = .error (.http resp.status ((canonicalReason resp.status).getD "Unknown")) ∧
      ∀ b : String, responseLogic dec { resp with body := b } = responseLogic dec resp := by
  intro α dec resp h
  refine ⟨?_, ?_⟩
  · simp [responseLogic, h]
  · intro b
    simp [responseLogic, h]

/-- Witness for C5: a 404 with a junk body and a declared decoder yields
`Http 404 "Not Found"` (the body and decoder are ignored), and a 599
yields the literal reason `"Unknown"`. -/
theorem claim_C5_witness :
    responseLogic (some demoDecode) ⟨404, "<html>boom</html>"⟩
      = .error (.http 404 "Not Found") ∧
    responseLogic (α := Nat) none ⟨599, "body"⟩ = .error (.http 599 "Unknown") :=
  ⟨((claim_C5 (some demoDecode) ⟨404, "<html>boom</html>"⟩ (by decide)).1).trans (by decide),
   ((claim_C5 (α := Nat) none ⟨599, "body"⟩ (by decide)).1).trans (by decide)⟩

/-- Claim C6: with `fn_name` absent, no `path` derives exactly the
lowercase method word; a `path` without `path_params` derives by
stripping the leading slash, replacing `/` with `_`, prefixing the method
word and an underscore, and snake-casing; GET `/users` derives
`get_users`. -/
theorem claim_C6 :
    (∀ d : EndpointDef, d.fn_name = none → d.path = none →
      (expandFnName d).text = d.method.as_str) ∧
    (∀ m : HttpMethod,
      m.as_str = "get" ∨ m.as_str = "post" ∨ m.as_str = "put" ∨ m.as_str = "delete") ∧
    (∀ (d : EndpointDef) (p : LitStr), d.fn_name = none → d.path = some p →
      d.path_params = none →
      (expandFnName d).text = specNameNoParams d.method p.value) ∧
    (expandFnName exampleC6).text = "get_users" := by
  refine ⟨?_, ?_, ?_, ?_⟩
  · intro d h1 h2
    rw [expandFnName_no_path d h1 h2]
  · intro m
    cases m <;> simp [HttpMethod.as_str]
  · intro d p h1 h2 h3
    exact expandFnName_no_params_eq_spec d p h1 h2 h3
  · decide

/-- Witness for C6: the two general statements instantiated at a bare
DELETE endpoint and at the GET `/users` endpoint. -/
theorem claim_C6_witness :
    (expandFnName { method := .DELETE }).text = HttpMethod.DELETE.as_str ∧
    (expandFnName exampleC6).text = specNameNoParams .GET "/users" :=
  ⟨claim_C6.1 { method := .DELETE } rfl rfl,
   claim_C6.2.2.1 exampleC6 ⟨"/users", 0⟩ rfl rfl rfl⟩

/-- Claim C7: an explicit `fn_name` is used verbatim as the operation
identifier in both the trait and the concrete implementation, whatever
the path, method and path parameters are. -/
theorem claim_C7 (d : EndpointDef) (n : Ident') (h : d.fn_name = some n) :
    expandFnName d = n ∧ (traitMethodSig d).name = n ∧ (implMethodSig d).name = n := by
  have h1 : expandFnName d = n := by simp [expandFnName, h]
  exact ⟨h1, by simp [traitMethodSig, h1], by simp [implMethodSig, h1]⟩

/-- Witness for C7: a POST endpoint with path, path parameters and the
explicit name `custom_op`. -/
theorem claim_C7_witness :
    expandFnName exampleC7 = ⟨"custom_op", 7⟩ ∧
    (traitMethodSig exampleC7).name = ⟨"custom_op", 7⟩ ∧
    (implMethodSig exampleC7).name = ⟨"custom_op", 7⟩ :=
  claim_C7 exampleC7 ⟨"custom_op", 7⟩ rfl

/-- Claim C8: an empty endpoint list makes generation fail before any
emission, with the diagnostic message exactly "at least one endpoint must
be defined" carried at the client name's source location. -/
theorem claim_C8 (input : HttpProviderInput) (h : input.endpoints = []) :
    expandProvider input = .error (.noEndpointsConfigured input.struct_name.sp) ∧
    (MacroError.noEndpointsConfigured input.struct_name.sp).toCompileError
      = ⟨"at least one endpoint must be defined", input.struct_name.sp⟩ := by
  constructor
  · simp [expandProvider, validateInput, h]
  · rfl

/-- Witness for C8: a provider input named `Api` (span 5) with no
endpoints. -/
theorem claim_C8_witness :
    expandProvider exampleC8 = .error (.noEndpointsConfigured 5) ∧
    (MacroError.noEndpointsConfigured 5).toCompileError
      = ⟨"at least one endpoint must be defined", 5⟩ :=
  claim_C8 exampleC8 rfl

/-- Claim C9: method parsing is case-insensitive — any identifier whose
uppercase form is GET, POST, PUT or DELETE is accepted and yields the
corresponding method, and every other identifier fails with the
"Unsupported HTTP method" diagnostic. -/
theorem claim_C9 :
    (∀ s : String, asciiUpper s = "GET" → HttpMethod.parse s = .ok .GET) ∧
    (∀ s : String, asciiUpper s = "POST" → HttpMethod.parse s = .ok .POST) ∧
    (∀ s : String, asciiUpper s = "PUT" → HttpMethod.parse s = .ok .PUT) ∧
    (∀ s : String, asciiUpper s = "DELETE" → HttpMethod.parse s = .ok .DELETE) ∧
    (∀ s : String, asciiUpper s ≠ "GET" → asciiUpper s ≠ "POST" → asciiUpper s ≠ "PUT" →
      asciiUpper s ≠ "DELETE" →
      HttpMethod.parse s = .error ("Unsupported HTTP method: " ++ s)) := by
  refine ⟨?_, ?_, ?_, ?_, ?_⟩ <;> intro s <;> intros <;> simp_all [HttpMethod.parse]

/-- Witness for C9: `get`, `Post` and `dElEtE` are accepted; `PATCH` is
rejected with the "Unsupported HTTP method" message. -/
theorem claim_C9_witness :
    HttpMethod.parse "get" = .ok .GET ∧
    HttpMethod.parse "Post" = .ok .POST ∧
    HttpMethod.parse "dElEtE" = .ok .DELETE ∧
    HttpMethod.parse "PATCH" = .error "Unsupported HTTP method: PATCH" := by
  refine ⟨claim_C9.1 "get" (by decide), claim_C9.2.1 "Post" (by decide),
    claim_C9.2.2.2.1 "dElEtE" (by decide), ?_⟩
  have h := claim_C9.2.2.2.2 "PATCH" (by decide) (by decide) (by decide) (by decide)
  exact h

/-- Claim C10: a field name repeated inside one endpoint block parses
without any duplicate-field diagnostic and the last occurrence wins. -/
theorem claim_C10 :
    (∀ (st : EndpointAcc) (f : FName) (v₁ v₂ : RawValue) (mid : List FieldEntry)
       (w₁ w₂ : FieldVal),
      parsedVal f v₁ = .ok w₁ → parsedVal f v₂ = .ok w₂ →
      (∀ e ∈ mid, e.name ≠ f.str ∧ ∃ f' : FName, e.name = f'.str ∧
        ∃ w, parsedVal f' e.value = .ok w) →
      ∃ st', parseFields st (⟨f.str, v₁⟩ :: mid ++ [⟨f.str, v₂⟩]) = .ok st' ∧
        getField st' f = some w₂) ∧
    parseEndpointDef exampleEntries
      = .ok { method := .GET, path := some ⟨"/b", 3⟩ } := by
  constructor
  · intro st f v₁ v₂ mid w₁ w₂ h1 h2 hmid
    obtain ⟨st', hp, hg⟩ := parseFields_last_wins mid (setField st f w₁) f v₂ w₂ h2 hmid
    refine ⟨st', ?_, hg⟩
    simp [parseFields, applyField_eq, h1, Except.map, hp]
  · decide

/-- Witness for C10: the block `path: "/a", method: GET, path: "/b"`
parses and keeps `path = "/b"`. -/
theorem claim_C10_witness :
    parseFields {} exampleEntries = .ok exampleEndpointAcc ∧
    getField exampleEndpointAcc .fPath = some (.fvLit ⟨"/b", 3⟩) := by
  obtain ⟨st', h1, h2⟩ := claim_C10.1 {} .fPath (.litS "/a" 1) (.litS "/b" 3)
    [⟨"method", .identV "GET" 2⟩] (.fvLit ⟨"/a", 1⟩) (.fvLit ⟨"/b", 3⟩)
    (by decide) (by decide)
    (by
      intro e he
      simp only [List.mem_singleton] at he
      subst he
      exact ⟨by decide, .fMethod, rfl, .fvMethod .GET, by decide⟩)
  have hst : st' = exampleEndpointAcc := by
    have hc : parseFields {} exampleEntries = .ok exampleEndpointAcc := by decide
    have h1' : parseFields {} exampleEntries = .ok st' := h1
    rw [h1'] at hc
    exact Except.ok.inj hc
  subst hst
  exact ⟨h1, h2⟩
